import Mathlib

/-!
Verification of the core of transQiita (src/translateQiita.py): the
markdown-safe chunked translation pipeline (`_get_translated_body`,
`_delete_redundant_space`) and the article matcher
(`divide_items_by_lang`, `find_new_items`, `has_banner`).

Python strings are modelled as `List Char`.  The Python builtins the
source relies on (`str.split`, `str.replace`, `str.find`, slicing into
fixed-size chunks, lexicographic `<` on strings) are modelled by
fuel-based structural recursion so that every definition evaluates by
kernel reduction; the fuel is always the length of the scanned list,
which a step never increases, so the fuel-exhausted arms are unreachable.
-/

namespace TransQiita

/-- Model of Python's prefix test (`s.startswith(p)` at the current scan
position): `isPre p l` is true iff `p` is an initial segment of `l`. -/
def isPre : List Char → List Char → Bool
  | [], _ => true
  | _ :: _, [] => false
  | a :: as, b :: bs => a == b && isPre as bs

/-- Model of `str.find(sub) >= 0`, i.e. substring containment: true iff
`sub` occurs contiguously somewhere in the scanned list. -/
def strFind (sub : List Char) : List Char → Bool
  | [] => isPre sub []
  | c :: rest => isPre sub (c :: rest) || strFind sub rest

/-- Model of Python's lexicographic `<` on strings (used by the source to
compare ISO-8601 `updated_at` timestamps). -/
def strLt : List Char → List Char → Bool
  | [], [] => false
  | [], _ :: _ => true
  | _ :: _, [] => false
  | a :: as, b :: bs => if a < b then true else if b < a then false else strLt as bs

/-- Worker for `pySplit`: Python's `str.split(sep)` for a non-empty
separator, scanning left to right and splitting at each non-overlapping
occurrence.  `acc` is the segment being accumulated. -/
def pySplitGo (sep : List Char) : Nat → List Char → List Char → List (List Char)
  | _, acc, [] => [acc]
  | 0, acc, rest => [acc ++ rest]
  | fuel + 1, acc, c :: rest =>
    if isPre sep (c :: rest) then
      acc :: pySplitGo sep fuel [] ((c :: rest).drop sep.length)
    else
      pySplitGo sep fuel (acc ++ [c]) rest

/-- Python's `body.split(sep)` for non-empty `sep` (the source only ever
splits on the three-backtick fence). -/
def pySplit (sep l : List Char) : List (List Char) :=
  if sep = [] then [l] else pySplitGo sep l.length [] l

/-- Worker for `countOccs`, aligned step for step with `pySplitGo`. -/
def countOccsGo (sep : List Char) : Nat → List Char → Nat
  | _, [] => 0
  | 0, _ => 0
  | fuel + 1, c :: rest =>
    if isPre sep (c :: rest) then
      1 + countOccsGo sep fuel ((c :: rest).drop sep.length)
    else
      countOccsGo sep fuel rest

/-- Python's `body.count(sep)`: the number of non-overlapping occurrences
of `sep` in `body`, counted left to right. -/
def countOccs (sep l : List Char) : Nat :=
  if sep = [] then 0 else countOccsGo sep l.length l

/-- Worker for `replaceAll`: Python's `str.replace(pat, rep)` for a
non-empty pattern, replacing non-overlapping occurrences left to right. -/
def replaceAllGo (pat rep : List Char) : Nat → List Char → List Char
  | _, [] => []
  | 0, rest => rest
  | fuel + 1, c :: rest =>
    if isPre pat (c :: rest) then
      rep ++ replaceAllGo pat rep fuel ((c :: rest).drop pat.length)
    else
      c :: replaceAllGo pat rep fuel rest

/-- Python's `s.replace(pat, rep)`.  Every pattern the source passes is a
non-empty literal, so the empty-pattern guard is never exercised. -/
def replaceAll (pat rep l : List Char) : List Char :=
  if pat = [] then l else replaceAllGo pat rep l.length l

/-- Worker for `chunksOf`: the slicing comprehension
`[element[i : i + n] for i in range(0, len(element), n)]`. -/
def chunksOfGo (n : Nat) : Nat → List Char → List (List Char)
  | _, [] => []
  | 0, rest => [rest]
  | fuel + 1, c :: rest =>
    (c :: rest).take n :: chunksOfGo n fuel ((c :: rest).drop n)

/-- The source's subdivision of an oversized prose segment into
consecutive pieces of `n` characters (the last piece may be shorter). -/
def chunksOf (n : Nat) (l : List Char) : List (List Char) :=
  chunksOfGo n l.length l

/-- Concatenation with a separator between adjacent pieces: the inverse
direction of `pySplit`. -/
def joinSep (sep : List Char) : List (List Char) → List Char
  | [] => []
  | [x] => x
  | x :: y :: xs => x ++ sep ++ joinSep sep (y :: xs)

/-! ## The translation pipeline (`QiitaArticle._get_translated_body` and
`QiitaArticle._delete_redundant_space`) -/

/-- The fence delimiter the source splits on: `body.split('```')`. -/
def fence : List Char := ("```").data

/-- The source's `chunk_size = 2000`. -/
def chunk_size : Nat := 2000

/-- The source's `prefix = '\n\n```'`, appended after a non-final even
(prose) segment. -/
def fencePre : List Char := ("\n\n```").data

/-- The source's `suffix = '```\n\n'`, appended after a non-final odd
(code) segment. -/
def fenceSuf : List Char := ("```\n\n").data

/-- The source's `target_dict` of `_delete_redundant_space`, in its
insertion order (Python 3.7+ dicts iterate in insertion order). -/
def target_dict : List (List Char × List Char) :=
  [ ((": |").data, (":|").data)
  , (("|: ").data, ("|:").data)
  , (("\" ").data, ("\"").data)
  , ((" \"").data, ("\"").data)
  , (("/ ").data, ("/").data)
  , ((" /").data, ("/").data)
  , (("\\ ").data, ("\\").data)
  , ((" \\").data, ("\\").data)
  , (("$ ").data, ("$").data)
  , ((" $").data, ("$").data)
  , (("! [").data, ("![").data) ]

/-- `QiitaArticle._delete_redundant_space`: apply each replacement of
`target_dict` in turn to the whole string. -/
def delete_redundant_space (original_str : List Char) : List Char :=
  target_dict.foldl (fun s kv => replaceAll kv.1 kv.2 s) original_str

/-- The treatment of one even-indexed (prose) segment in
`_get_translated_body`, with the external `translator.translate` call
abstracted as `tr`: segments longer than `chunk_size` are cut into
`chunk_size`-character pieces each translated separately and
concatenated, shorter ones are translated whole; the result is passed
through `_delete_redundant_space`. -/
def transformProse (tr : List Char → List Char) (element : List Char) : List Char :=
  delete_redundant_space
    (if chunk_size < element.length then
      ((chunksOf chunk_size element).map tr).flatten
    else
      tr element)

/-- The reassembly loop of `_get_translated_body` over the segments of
`body.split('```')`.  The flag is true on odd (code) positions.  A final
segment is appended bare; a non-final prose segment is appended as its
translation followed by `prefix`; a non-final code segment is appended
verbatim followed by `suffix`. -/
def assemble (tr : List Char → List Char) : Bool → List (List Char) → List Char
  | _, [] => []
  | isCode, [x] => if isCode then x else transformProse tr x
  | isCode, x :: y :: xs =>
    (if isCode then x ++ fenceSuf else transformProse tr x ++ fencePre) ++
      assemble tr (!isCode) (y :: xs)

/-- The source's `banner` string built in `_get_translated_body`. -/
def bannerOf (articleid url : List Char) : List Char :=
  ("**This article is an automatic translation of the article[").data ++ articleid ++
    ("] below.\n").data ++ url ++ ("**\n\n").data

/-- `QiitaArticle._get_translated_body`, with the external translation
backend abstracted as `tr`: the banner followed by the reassembled
segments of `body.split('```')`. -/
def get_translated_body (tr : List Char → List Char) (articleid url body : List Char) :
    List Char :=
  bannerOf articleid url ++ assemble tr false (pySplit fence body)

/-- Worker for `countCode`: how many segments the reassembly loop sends
through its odd (`i % 2 == 1`, code) branch, with the same alternating
flag as `assemble`. -/
def countCodeFrom : Bool → List (List Char) → Nat
  | _, [] => 0
  | false, _ :: xs => countCodeFrom true xs
  | true, _ :: xs => 1 + countCodeFrom false xs

/-- The number of segments of a split body that `_get_translated_body`
classifies as code (odd positions). -/
def countCode (segs : List (List Char)) : Nat :=
  countCodeFrom false segs

/-- The context (everything emitted before and after a given code slot)
of one position of the reassembly loop; used to state that odd segments
reach the output verbatim. -/
def assembleCtx (tr : List Char → List Char) : Bool → List (List Char) → Nat →
    List Char × List Char
  | _, [], _ => ([], [])
  | _, [_], _ => ([], [])
  | isCode, _ :: y :: xs, 0 =>
    ([], (if isCode then fenceSuf else fencePre) ++ assemble tr (!isCode) (y :: xs))
  | isCode, x :: y :: xs, i + 1 =>
    let p := assembleCtx tr (!isCode) (y :: xs) i
    ((if isCode then x ++ fenceSuf else transformProse tr x ++ fencePre) ++ p.1, p.2)

/-! ## The matcher (`divide_items_by_lang`, `find_new_items`,
`QiitaArticle.has_banner`) -/

/-- The fields of a Qiita item that the matcher core reads.  `lang` holds
the result of the external language detector (`detect_lang`, out of
scope per the interface boundary); the remaining JSON fields of an item
are never read by the matcher and are omitted. -/
structure Item where
  articleid : List Char
  body : List Char
  updated_at : List Char
  lang : List Char
deriving DecidableEq, Repr

/-- `QiitaArticle.has_banner`: `self._body.find(articleid) >= 0`. -/
def Item.has_banner (self : Item) (articleid : List Char) : Bool :=
  strFind articleid self.body

/-- A key of the `new_items` dict: Python stores either the enumeration
index `i` (an int) or a translated article's id (a str); the two kinds
never collide. -/
inductive WKey where
  | pos : Nat → WKey
  | tid : List Char → WKey
deriving DecidableEq, Repr

/-- Python dict assignment `d[k] = v` on an insertion-ordered dict: an
existing key keeps its position and gets the new value; a new key is
appended. -/
def dictInsert (k : WKey) (v : Item) (d : List (WKey × Item)) : List (WKey × Item) :=
  if d.any (fun p => p.1 == k) then
    d.map (fun p => if p.1 == k then (k, v) else p)
  else
    d ++ [(k, v)]

/-- The inner loop of `find_new_items`: scan `translated_items` in order
and stop at the first item whose body contains `articleid` (the loop
breaks at the first `has_banner` hit); `none` means the loop fell
through to its `else` clause. -/
def scanTargets (articleid : List Char) : List Item → Option Item
  | [] => none
  | t :: ts => if t.has_banner articleid then some t else scanTargets articleid ts

/-- The body of the outer loop of `find_new_items` for the origin at
enumeration index `i`: the dict entry it writes, if any. -/
def classifyStep (translated_items : List Item) (i : Nat) (origin : Item) :
    Option (WKey × Item) :=
  match scanTargets origin.articleid translated_items with
  | some t =>
    if strLt t.updated_at origin.updated_at then
      some (WKey.tid t.articleid, origin)
    else
      none
  | none => some (WKey.pos i, origin)

/-- The outer loop of `find_new_items`, threading the enumeration index
and the `new_items` dict. -/
def findNewGo (translated_items : List Item) : Nat → List (WKey × Item) → List Item →
    List (WKey × Item)
  | _, d, [] => d
  | i, d, o :: os =>
    findNewGo translated_items (i + 1)
      (match classifyStep translated_items i o with
       | some r => dictInsert r.1 r.2 d
       | none => d) os

/-- `find_new_items` after its call to `divide_items_by_lang`, i.e. the
matcher proper on the two buckets. -/
def find_new_items_core (original_items translated_items : List Item) :
    List (WKey × Item) :=
  findNewGo translated_items 0 [] original_items

/-- `divide_items_by_lang`: items whose detected language is `'en'` go to
`translated_items`, every other detected language goes to
`original_items`, both in corpus order. -/
def divide_items_by_lang (items : List Item) : List Item × List Item :=
  (items.filter (fun it => !(it.lang == ("en").data)),
   items.filter (fun it => it.lang == ("en").data))

/-- `find_new_items` as in the source: divide the corpus by language and
run the matcher on the two buckets. -/
def find_new_items (items : List Item) : List (WKey × Item) :=
  find_new_items_core (divide_items_by_lang items).1 (divide_items_by_lang items).2

/-! ## Spec-side definitions

These follow the words of the specification, for comparison with the
definitions above that were translated from the source. -/

/-- Follows the spec's words (§4.3 step 4): the banner text
`This article is an automatic translation of the article[<originalId>] below.\n<originalUrl>`. -/
def specBannerText (originalId originalUrl : List Char) : List Char :=
  ("This article is an automatic translation of the article[").data ++ originalId ++
    ("] below.\n").data ++ originalUrl

/-- Follows the spec's words (§4.1): the pairing decision for the source
document `o` at position `i` — the first target document whose body
contains `o`'s id decides `Stale` (keyed by its id) or `UpToDate` (no
record); no match yields `New` (keyed by the position index). -/
def matcherRecord (targetBucket : List Item) (i : Nat) (o : Item) :
    Option (WKey × Item) :=
  match targetBucket.find? (fun t => t.has_banner o.articleid) with
  | some t =>
    if strLt t.updated_at o.updated_at then
      some (WKey.tid t.articleid, o)
    else
      none
  | none => some (WKey.pos i, o)

/-- Follows the spec's words (§4.1): the emitted pairing records in
source-bucket traversal order, starting at position `i`. -/
def matcherRecordsFrom (targetBucket : List Item) : Nat → List Item → List (WKey × Item)
  | _, [] => []
  | i, o :: os =>
    match matcherRecord targetBucket i o with
    | some r => r :: matcherRecordsFrom targetBucket (i + 1) os
    | none => matcherRecordsFrom targetBucket (i + 1) os

/-- The worklist obtained by inserting a record sequence into an
insertion-ordered dict, in order. -/
def worklistOf (records : List (WKey × Item)) : List (WKey × Item) :=
  records.foldl (fun d r => dictInsert r.1 r.2 d) []

/-! ## Concrete items for witnesses and counterexamples -/

/-- A source-language article with id `A`, updated 2018-03-01. -/
def itemO1 : Item := ⟨("A").data, ("alpha").data, ("2018-03-01").data, ("ja").data⟩

/-- A source-language article with id `B`, updated 2018-04-01. -/
def itemO2 : Item := ⟨("B").data, ("beta").data, ("2018-04-01").data, ("ja").data⟩

/-- A translated article whose body embeds both ids `A` and `B`, older
than both sources. -/
def itemT : Item := ⟨("T").data, ("see [A] and [B]").data, ("2018-01-01").data, ("en").data⟩

/-- A translated article embedding id `A` whose timestamp equals
`itemO1`'s. -/
def itemTEq : Item := ⟨("T").data, ("see [A]").data, ("2018-03-01").data, ("en").data⟩

/-! ## Helper lemmas -/

lemma isPre_exists {s l : List Char} (h : isPre s l = true) : ∃ t, l = s ++ t := by
  induction s generalizing l with
  | nil => exact ⟨l, rfl⟩
  | cons a as ih =>
    cases l with
    | nil => simp [isPre] at h
    | cons b bs =>
      simp only [isPre, Bool.and_eq_true, beq_iff_eq] at h
      obtain ⟨hab, hpre⟩ := h
      obtain ⟨t, ht⟩ := ih hpre
      subst hab
      exact ⟨t, by simp [ht]⟩

lemma isPre_self_append (l t : List Char) : isPre l (l ++ t) = true := by
  induction l with
  | nil => rfl
  | cons a as ih => simp [isPre, ih]

lemma strFind_of_isPre {sub l : List Char} (h : isPre sub l = true) :
    strFind sub l = true := by
  cases l with
  | nil => simpa [strFind] using h
  | cons c rest => simp [strFind, h]

lemma strFind_cons {sub rest : List Char} (c : Char) (h : strFind sub rest = true) :
    strFind sub (c :: rest) = true := by
  simp [strFind, h]

lemma strFind_append (a sub b : List Char) : strFind sub (a ++ (sub ++ b)) = true := by
  induction a with
  | nil => exact strFind_of_isPre (isPre_self_append sub b)
  | cons c cs ih => simpa using strFind_cons c ih

lemma pySplitGo_ne_nil (sep : List Char) :
    ∀ (fuel : Nat) (acc l : List Char), pySplitGo sep fuel acc l ≠ [] := by
  intro fuel
  induction fuel with
  | zero => intro acc l; cases l <;> simp [pySplitGo]
  | succ f ih =>
    intro acc l
    cases l with
    | nil => simp [pySplitGo]
    | cons c rest =>
      cases hpre : isPre sep (c :: rest) with
      | true => simp [pySplitGo, hpre]
      | false => simpa [pySplitGo, hpre] using ih (acc ++ [c]) rest

lemma joinSep_pySplitGo (sep : List Char) (hsep : sep ≠ []) :
    ∀ (fuel : Nat) (l acc : List Char), l.length ≤ fuel →
      joinSep sep (pySplitGo sep fuel acc l) = acc ++ l := by
  intro fuel
  induction fuel with
  | zero =>
    intro l acc hl
    have hnil : l = [] := List.length_eq_zero.mp (Nat.le_zero.mp hl)
    subst hnil
    simp [pySplitGo, joinSep]
  | succ f ih =>
    intro l acc hl
    cases l with
    | nil => simp [pySplitGo, joinSep]
    | cons c rest =>
      cases hpre : isPre sep (c :: rest) with
      | false =>
        have hrec := ih rest (acc ++ [c]) (by simpa using Nat.le_of_succ_le_succ hl)
        simpa [pySplitGo, hpre] using hrec
      | true =>
        obtain ⟨t, ht⟩ := isPre_exists hpre
        have hdrop : (c :: rest).drop sep.length = t := by
          rw [ht]; exact List.drop_left sep t
        have hslen : 0 < sep.length := List.length_pos.mpr hsep
        have hclen : (c :: rest).length = sep.length + t.length := by
          rw [ht]; exact List.length_append sep t
        have htlen : t.length ≤ f := by
          simp only [List.length_cons] at hclen hl
          omega
        obtain ⟨z, zs, hz⟩ : ∃ z zs, pySplitGo sep f [] t = z :: zs := by
          cases hq : pySplitGo sep f [] t with
          | nil => exact absurd hq (pySplitGo_ne_nil sep f [] t)
          | cons z zs => exact ⟨z, zs, rfl⟩
        have hrec := ih t [] htlen
        rw [hz] at hrec
        simp only [List.nil_append] at hrec
        simp only [pySplitGo, hpre, if_true, hdrop, hz, joinSep, hrec]
        rw [ht]
        simp [List.append_assoc]

lemma length_pySplitGo (sep : List Char) :
    ∀ (fuel : Nat) (acc l : List Char),
      (pySplitGo sep fuel acc l).length = countOccsGo sep fuel l + 1 := by
  intro fuel
  induction fuel with
  | zero => intro acc l; cases l <;> simp [pySplitGo, countOccsGo]
  | succ f ih =>
    intro acc l
    cases l with
    | nil => simp [pySplitGo, countOccsGo]
    | cons c rest =>
      cases hpre : isPre sep (c :: rest) with
      | false => simp [pySplitGo, countOccsGo, hpre, ih]
      | true =>
        simp [pySplitGo, countOccsGo, hpre, ih]
        omega

lemma countCodeFrom_eq (segs : List (List Char)) :
    countCodeFrom false segs = segs.length / 2 ∧
    countCodeFrom true segs = (segs.length + 1) / 2 := by
  induction segs with
  | nil => simp [countCodeFrom]
  | cons x xs ih =>
    obtain ⟨h1, h2⟩ := ih
    refine ⟨?_, ?_⟩
    · simp only [countCodeFrom, h2, List.length_cons]
    · simp only [countCodeFrom, h1, List.length_cons]
      omega

lemma chunksOfGo_spec (n : Nat) (hn : 0 < n) :
    ∀ (fuel : Nat) (l : List Char), l.length ≤ fuel →
      (∀ c ∈ chunksOfGo n fuel l, c.length ≤ n) ∧
      (∀ c ∈ (chunksOfGo n fuel l).dropLast, c.length = n) ∧
      (chunksOfGo n fuel l).flatten = l := by
  intro fuel
  induction fuel with
  | zero =>
    intro l hl
    have hnil : l = [] := List.length_eq_zero.mp (Nat.le_zero.mp hl)
    subst hnil
    simp [chunksOfGo]
  | succ f ih =>
    intro l hl
    cases l with
    | nil => simp [chunksOfGo]
    | cons c rest =>
      have hd : ((c :: rest).drop n).length ≤ f := by
        simp only [List.length_drop, List.length_cons] at *
        omega
      obtain ⟨ih1, ih2, ih3⟩ := ih ((c :: rest).drop n) hd
      have htake : ((c :: rest).take n).length ≤ n := by
        rw [List.length_take]
        exact Nat.min_le_left _ _
      refine ⟨?_, ?_, ?_⟩
      · intro x hx
        simp only [chunksOfGo, List.mem_cons] at hx
        rcases hx with hx | hx
        · subst hx; exact htake
        · exact ih1 x hx
      · intro x hx
        simp only [chunksOfGo] at hx
        cases hrec : chunksOfGo n f ((c :: rest).drop n) with
        | nil => rw [hrec] at hx; simp at hx
        | cons z zs =>
          rw [hrec, List.dropLast_cons_of_ne_nil (by simp), List.mem_cons] at hx
          have hlong : n < (c :: rest).length := by
            by_contra hle
            push_neg at hle
            have : (c :: rest).drop n = [] := List.drop_eq_nil_of_le hle
            rw [this] at hrec
            simp [chunksOfGo] at hrec
          rcases hx with hx | hx
          · subst hx
            rw [List.length_take]
            omega
          · rw [← hrec] at hx
            exact ih2 x hx
      · simp only [chunksOfGo, List.flatten_cons, ih3]
        exact List.take_append_drop n (c :: rest)

lemma strLt_irrefl : ∀ l : List Char, strLt l l = false := by
  intro l
  induction l with
  | nil => rfl
  | cons a as ih =>
    simp only [strLt, if_neg (lt_irrefl a)]
    exact ih

lemma scanTargets_eq_find (articleid : List Char) :
    ∀ ts : List Item,
      scanTargets articleid ts = ts.find? (fun t => t.has_banner articleid) := by
  intro ts
  induction ts with
  | nil => rfl
  | cons t ts ih =>
    cases h : t.has_banner articleid with
    | true => simp [scanTargets, List.find?, h]
    | false => simp [scanTargets, List.find?, h, ih]

lemma classifyStep_eq_matcherRecord (ts : List Item) (i : Nat) (o : Item) :
    classifyStep ts i o = matcherRecord ts i o := by
  simp only [classifyStep, matcherRecord, scanTargets_eq_find]

lemma findNewGo_eq_foldl (ts : List Item) :
    ∀ (os : List Item) (i : Nat) (d : List (WKey × Item)),
      findNewGo ts i d os =
        (matcherRecordsFrom ts i os).foldl (fun d r => dictInsert r.1 r.2 d) d := by
  intro os
  induction os with
  | nil =>
    intro i d
    rfl
  | cons o os ih =>
    intro i d
    simp only [findNewGo, matcherRecordsFrom, classifyStep_eq_matcherRecord]
    cases h : matcherRecord ts i o with
    | some r => simp [h, ih]
    | none => simp [h, ih]

lemma mem_dictInsert {p : WKey × Item} {k : WKey} {v : Item} {d : List (WKey × Item)}
    (h : p ∈ dictInsert k v d) : p ∈ d ∨ p = (k, v) := by
  unfold dictInsert at h
  by_cases hc : d.any (fun q => q.1 == k) = true
  · rw [if_pos hc] at h
    obtain ⟨q, hq, hqe⟩ := List.mem_map.mp h
    by_cases hqk : (q.1 == k) = true
    · rw [if_pos hqk] at hqe
      exact Or.inr hqe.symm
    · rw [if_neg hqk] at hqe
      exact Or.inl (hqe ▸ hq)
  · rw [if_neg hc] at h
    rcases List.mem_append.mp h with h | h
    · exact Or.inl h
    · exact Or.inr (by simpa using h)

lemma classifyStep_some_snd {ts : List Item} {j : Nat} {o : Item} {p : WKey × Item}
    (h : classifyStep ts j o = some p) : p.2 = o := by
  unfold classifyStep at h
  split at h
  · split at h
    · cases h
      rfl
    · cases h
  · cases h
    rfl

lemma mem_findNewGo (ts : List Item) :
    ∀ (os : List Item) (i : Nat) (d : List (WKey × Item)) (p : WKey × Item),
      p ∈ findNewGo ts i d os →
      p ∈ d ∨ ∃ j o, o ∈ os ∧ classifyStep ts j o = some p := by
  intro os
  induction os with
  | nil =>
    intro i d p h
    exact Or.inl h
  | cons o os ih =>
    intro i d p h
    simp only [findNewGo] at h
    cases hc : classifyStep ts i o with
    | some r =>
      rw [hc] at h
      rcases ih (i + 1) (dictInsert r.1 r.2 d) p h with h1 | h1
      · rcases mem_dictInsert h1 with h2 | h2
        · exact Or.inl h2
        · exact Or.inr ⟨i, o, List.mem_cons_self o os, by rw [hc, h2]⟩
      · obtain ⟨j, o2, ho2, hcs⟩ := h1
        exact Or.inr ⟨j, o2, List.mem_cons_of_mem o ho2, hcs⟩
    | none =>
      rw [hc] at h
      rcases ih (i + 1) d p h with h1 | h1
      · exact Or.inl h1
      · obtain ⟨j, o2, ho2, hcs⟩ := h1
        exact Or.inr ⟨j, o2, List.mem_cons_of_mem o ho2, hcs⟩

lemma filter_partition_length (p : Item → Bool) :
    ∀ items : List Item,
      (items.filter (fun it => !(p it))).length + (items.filter p).length =
        items.length := by
  intro items
  induction items with
  | nil => rfl
  | cons a l ih =>
    cases h : p a <;> simp [List.filter_cons, h] <;> omega

lemma set_get_self : ∀ (l : List (List Char)) (i : Nat) (h : i < l.length),
    l.set i (l.get ⟨i, h⟩) = l := by
  intro l
  induction l with
  | nil => intro i h; simp at h
  | cons a as ih =>
    intro i h
    cases i with
    | zero => rfl
    | succ j =>
      have hj : j < as.length := by simpa using Nat.lt_of_succ_lt_succ h
      simp only [List.get_cons_succ, List.set_cons_succ]
      rw [ih j hj]

lemma assemble_cons_ne_nil (tr : List Char → List Char) (b : Bool) (x : List Char)
    {l : List (List Char)} (h : l ≠ []) :
    assemble tr b (x :: l) =
      (if b then x ++ fenceSuf else transformProse tr x ++ fencePre) ++
        assemble tr (!b) l := by
  cases l with
  | nil => exact absurd rfl h
  | cons y ys => rfl

lemma assemble_set_eq_ctx (tr : List Char → List Char) :
    ∀ (segs : List (List Char)) (b : Bool) (i : Nat) (x : List Char),
      (i % 2 = 0 ∧ b = true ∨ i % 2 = 1 ∧ b = false) → i < segs.length →
      assemble tr b (segs.set i x) =
        (assembleCtx tr b segs i).1 ++ x ++ (assembleCtx tr b segs i).2 := by
  intro segs
  induction segs with
  | nil =>
    intro b i x hpar hi
    simp at hi
  | cons x0 rest ih =>
    intro b i x hpar hi
    cases rest with
    | nil =>
      have hi0 : i = 0 := by simp at hi; omega
      subst hi0
      have hb : b = true := by
        rcases hpar with ⟨_, hb⟩ | ⟨h1, _⟩
        · exact hb
        · omega
      subst hb
      simp [assemble, assembleCtx]
    | cons y ys =>
      cases i with
      | zero =>
        have hb : b = true := by
          rcases hpar with ⟨_, hb⟩ | ⟨h1, _⟩
          · exact hb
          · omega
        subst hb
        simp [assemble, assembleCtx, List.append_assoc]
      | succ j =>
        have hpar' : j % 2 = 0 ∧ (!b) = true ∨ j % 2 = 1 ∧ (!b) = false := by
          rcases hpar with ⟨h1, h2⟩ | ⟨h1, h2⟩
          · subst h2
            right
            exact ⟨by omega, rfl⟩
          · subst h2
            left
            exact ⟨by omega, rfl⟩
        have hj : j < (y :: ys).length := by
          simpa using Nat.lt_of_succ_lt_succ hi
        have hrec := ih (!b) j x hpar' hj
        have hne : (y :: ys).set j x ≠ [] := by
          intro hc
          have hlen := congrArg List.length hc
          simp at hlen
        rw [List.set_cons_succ, assemble_cons_ne_nil tr b x0 hne, hrec]
        simp [assembleCtx, List.append_assoc]

/-! ## Claims -/

/-- C1, counterexample: with the identity transform in place of
translation, the reassembly loop of `_get_translated_body` does not
reproduce the body `a```b```c`, because the fence delimiter is reinserted
padded with blank lines (`\n\n` + fence and fence + `\n\n`), not bare. -/
theorem c1_counterexample :
    assemble (fun s => s) false (pySplit fence (("a```b```c").data)) ≠
      ("a```b```c").data := by
  decide

/-- C1, amended: splitting the body on a (non-empty) fence delimiter and
concatenating the chunks with the delimiter itself reinserted between
adjacent chunks reproduces the original body byte-for-byte; the
pipeline's own reassembly instead reinserts the delimiter padded with
blank lines, so it does not reproduce bodies that contain a fence. -/
theorem c1_split_join_roundtrip (sep body : List Char) (hsep : sep ≠ []) :
    joinSep sep (pySplit sep body) = body := by
  unfold pySplit
  rw [if_neg hsep]
  simpa using joinSep_pySplitGo sep hsep body.length body [] le_rfl

/-- C1, witness for the amended theorem at a concrete body and the
source's fence delimiter. -/
theorem c1_witness :
    fence ≠ [] ∧ joinSep fence (pySplit fence (("x```y").data)) = ("x```y").data :=
  ⟨by decide, c1_split_join_roundtrip fence (("x```y").data) (by decide)⟩

/-- C2, counterexample: on the body `a```b` (one fence occurrence, a
dangling unterminated fence) the loop classifies one segment as code,
not `floor(1 / 2) = 0`: the remainder after the dangling delimiter sits
at odd position 1 and is handled by the code branch, not the prose
branch. -/
theorem c2_counterexample :
    countCode (pySplit fence (("a```b").data)) ≠
      countOccs fence (("a```b").data) / 2 := by
  decide

/-- C2, amended: the number of segments classified as code equals
`ceil(n / 2) = (n + 1) / 2` where `n` is the number of fence-delimiter
occurrences in the body; in particular, when `n` is odd the remainder
after the last (unterminated) delimiter is classified as code and is
reproduced verbatim rather than translated. -/
theorem c2_code_chunk_count (body : List Char) :
    countCode (pySplit fence body) = (countOccs fence body + 1) / 2 := by
  have hf : fence ≠ [] := by decide
  have h1 : (pySplit fence body).length = countOccs fence body + 1 := by
    simp only [pySplit, countOccs, if_neg hf]
    exact length_pySplitGo fence body.length [] body
  have h2 := (countCodeFrom_eq (pySplit fence body)).1
  show countCodeFrom false (pySplit fence body) = (countOccs fence body + 1) / 2
  rw [h2, h1]

/-- C5: the subdivision of an oversized prose segment produces pieces of
length at most `n`, all but possibly the last of length exactly `n`, and
concatenating the pieces in order reproduces the segment exactly. -/
theorem c5_subdivision (n : Nat) (l : List Char) (hn : 0 < n) (_hl : n < l.length) :
    (∀ c ∈ chunksOf n l, c.length ≤ n) ∧
    (∀ c ∈ (chunksOf n l).dropLast, c.length = n) ∧
    (chunksOf n l).flatten = l :=
  chunksOfGo_spec n hn l.length l le_rfl

/-- C5, witness: the subdivision properties at piece size 2 on the
five-character segment `abcde`. -/
theorem c5_witness :
    0 < 2 ∧ 2 < (("abcde").data).length ∧
    (chunksOf 2 (("abcde").data)).flatten = ("abcde").data :=
  ⟨by decide, by decide,
    (c5_subdivision 2 (("abcde").data) (by decide) (by decide)).2.2⟩

/-- C7, counterexample: the translated body does not begin with the bare
banner text `This article is an automatic translation of the
article[x] below.\nu`; the source wraps the banner in `**` bold markers,
so the output begins with `**`. -/
theorem c7_counterexample :
    isPre (specBannerText (("x").data) (("u").data))
      (get_translated_body (fun s => s) (("x").data) (("u").data) (("b").data)) =
      false := by
  decide

/-- C7, amended: the translated body begins with `**`, then the banner
text `This article is an automatic translation of the
article[<originalId>] below.\n<originalUrl>`, then `**` followed by a
blank line, before the reassembled body; in particular the output
contains the original article's id as a substring, so the matcher's
banner-detection predicate accepts it. -/
theorem c7_banner (tr : List Char → List Char) (articleid url body : List Char) :
    get_translated_body tr articleid url body =
      ("**").data ++ (specBannerText articleid url ++
        (("**\n\n").data ++ assemble tr false (pySplit fence body))) ∧
    strFind articleid (get_translated_body tr articleid url body) = true := by
  constructor
  · simp [get_translated_body, bannerOf, specBannerText, List.append_assoc]
  · have h := strFind_append
      (("**This article is an automatic translation of the article[").data) articleid
      ((("] below.\n").data ++ (url ++ (("**\n\n").data ++
        assemble tr false (pySplit fence body)))))
    simpa [get_translated_body, bannerOf, List.append_assoc] using h

/-- C8: an odd-indexed (code) segment of the split body reaches the
output of `_get_translated_body` verbatim, placed between a context that
does not depend on the segment's content: replacing the segment by any
text `x` whatsoever reproduces the same surrounding output with `x` in
the slot, so the segment is never subdivided, never passed to the
translation backend `tr`, and never whitespace-repaired. -/
theorem c8_code_verbatim (tr : List Char → List Char) (articleid url body : List Char)
    (i : Nat) (h : i < (pySplit fence body).length) (hodd : i % 2 = 1) :
    (∀ x, assemble tr false ((pySplit fence body).set i x) =
      (assembleCtx tr false (pySplit fence body) i).1 ++ x ++
        (assembleCtx tr false (pySplit fence body) i).2) ∧
    get_translated_body tr articleid url body =
      bannerOf articleid url ++
        ((assembleCtx tr false (pySplit fence body) i).1 ++
          ((pySplit fence body).get ⟨i, h⟩ ++
            (assembleCtx tr false (pySplit fence body) i).2)) := by
  have hmain : ∀ x, assemble tr false ((pySplit fence body).set i x) =
      (assembleCtx tr false (pySplit fence body) i).1 ++ x ++
        (assembleCtx tr false (pySplit fence body) i).2 := fun x =>
    assemble_set_eq_ctx tr (pySplit fence body) false i x (Or.inr ⟨hodd, rfl⟩) h
  refine ⟨hmain, ?_⟩
  have hx := hmain ((pySplit fence body).get ⟨i, h⟩)
  rw [set_get_self _ i h] at hx
  simp [get_translated_body, hx, List.append_assoc]

/-- C8, witness: the code segment at position 1 of `a```b```c`, replaced
by the text `ZZ`, under a constant transform. -/
theorem c8_witness :
    assemble (fun _ => ("T").data) false
        ((pySplit fence (("a```b```c").data)).set 1 (("ZZ").data)) =
      (assembleCtx (fun _ => ("T").data) false
          (pySplit fence (("a```b```c").data)) 1).1 ++ ("ZZ").data ++
        (assembleCtx (fun _ => ("T").data) false
          (pySplit fence (("a```b```c").data)) 1).2 :=
  (c8_code_verbatim (fun _ => ("T").data) (("I").data) (("U").data)
    (("a```b```c").data) 1 (by decide) (by decide)).1 (("ZZ").data)

/-- C6: applying the repair table of `_delete_redundant_space`, rules in
insertion order, maps `foo : | bar` to `foo :| bar` and `! [alt](url)`
to `![alt](url)`. -/
theorem c6_whitespace_repair :
    delete_redundant_space (("foo : | bar").data) = ("foo :| bar").data ∧
    delete_redundant_space (("! [alt](url)").data) = ("![alt](url)").data := by
  decide

/-- C3: the matcher equals its specification — for each source document
in source-bucket traversal order, scan the target bucket in order for
the first document whose body contains the source's id: a stale match
emits a record keyed by the sibling's id, a current match emits nothing,
no match emits a record keyed by the position index; the emitted
records, in traversal order, are inserted into the insertion-ordered
worklist dict. -/
theorem c3_matcher_refines_spec (original_items translated_items : List Item) :
    find_new_items_core original_items translated_items =
      worklistOf (matcherRecordsFrom translated_items 0 original_items) := by
  unfold find_new_items_core worklistOf
  exact findNewGo_eq_foldl translated_items original_items 0 []

/-- C4: given the first matched sibling `t` of a source document `o`,
the pair is recorded as stale exactly when `t`'s `updated_at` is
strictly below `o`'s; with equal timestamps the step emits nothing and
`o` appears in no run's worklist. -/
theorem c4_staleness_tiebreak (ts : List Item) (o t : Item)
    (h : scanTargets o.articleid ts = some t) :
    (∀ i, classifyStep ts i o = some (WKey.tid t.articleid, o) ↔
      strLt t.updated_at o.updated_at = true) ∧
    (t.updated_at = o.updated_at →
      ∀ (os : List Item) (p : WKey × Item), p ∈ find_new_items_core os ts →
        p.2 ≠ o) := by
  have hstep : ∀ i, classifyStep ts i o =
      if strLt t.updated_at o.updated_at then
        some (WKey.tid t.articleid, o)
      else
        none := by
    intro i
    unfold classifyStep
    rw [h]
  constructor
  · intro i
    rw [hstep i]
    by_cases hl : strLt t.updated_at o.updated_at = true
    · simp [hl]
    · simp [hl]
  · intro heq os p hp hpo
    have hlt : strLt t.updated_at o.updated_at = false := by
      rw [heq]
      exact strLt_irrefl o.updated_at
    rcases mem_findNewGo ts os 0 [] p hp with h1 | ⟨j, o2, ho2, hcs⟩
    · simp at h1
    · have h2 : p.2 = o2 := classifyStep_some_snd hcs
      rw [hpo] at h2
      rw [← h2] at hcs
      rw [hstep j, hlt] at hcs
      simp at hcs

/-- C4, witness: the staleness criterion instantiated at a concrete
source document and its matched sibling. -/
theorem c4_witness :
    classifyStep [itemT] 0 itemO1 = some (WKey.tid itemT.articleid, itemO1) ↔
      strLt itemT.updated_at itemO1.updated_at = true :=
  (c4_staleness_tiebreak [itemT] itemO1 itemT (by decide)).1 0

/-- C9: an item of the corpus lands in the target-language bucket iff the
detector labelled it `en`; any other detected language lands it in the
source bucket; the two buckets partition the corpus. -/
theorem c9_language_partition (items : List Item) (it : Item) (h : it ∈ items) :
    (it ∈ (divide_items_by_lang items).2 ↔ it.lang = ("en").data) ∧
    (it ∈ (divide_items_by_lang items).1 ↔ ¬ it.lang = ("en").data) ∧
    ¬ (it ∈ (divide_items_by_lang items).1 ∧ it ∈ (divide_items_by_lang items).2) ∧
    (divide_items_by_lang items).1.length + (divide_items_by_lang items).2.length =
      items.length := by
  refine ⟨?_, ?_, ?_, filter_partition_length (fun x => x.lang == ("en").data) items⟩
  · simp [divide_items_by_lang, List.mem_filter, h]
  · simp [divide_items_by_lang, List.mem_filter, h]
  · rintro ⟨h1, h2⟩
    simp only [divide_items_by_lang, List.mem_filter, Bool.not_eq_true',
      beq_iff_eq, beq_eq_false_iff_ne] at h1 h2
    exact absurd h2.2 h1.2

/-- C9, witness: the partition criterion at a concrete two-item corpus. -/
theorem c9_witness :
    itemT ∈ [itemO1, itemT] ∧
    (itemT ∈ (divide_items_by_lang [itemO1, itemT]).2 ↔ itemT.lang = ("en").data) :=
  ⟨by decide, (c9_language_partition [itemO1, itemT] itemT (by decide)).1⟩

/-- C10: two distinct source documents stale against the same sibling
both emit records keyed by the sibling's id; the later record overwrites
the earlier one in the dict, so the earlier source document is silently
absent from the final worklist. -/
theorem c10_stale_overwrite :
    classifyStep [itemT] 0 itemO1 = some (WKey.tid (("T").data), itemO1) ∧
    classifyStep [itemT] 1 itemO2 = some (WKey.tid (("T").data), itemO2) ∧
    find_new_items_core [itemO1, itemO2] [itemT] =
      [(WKey.tid (("T").data), itemO2)] ∧
    itemO1 ≠ itemO2 ∧
    (find_new_items_core [itemO1, itemO2] [itemT]).all
      (fun p => !(p.2 == itemO1)) = true := by
  decide

end TransQiita
